import Mathlib

/-!
Verification development for the jigsaw-puzzle assembler (`src/main.rs`).

The Rust program loads square-grid puzzle tiles, fingerprints each tile's
four border strips with a 64-bit rolling hash over quantized grayscale
intensities, sorts the tiles so that anchors (first-column / first-row
tiles, recognised by their dimensions) come first, and then runs a
stack-based traversal that assigns absolute (col,row) grid coordinates by
propagating edge-fingerprint matches rightward and downward.  Finally every
piece whose coordinates lie inside the 16x16 grid is blitted onto a canvas.

This file gives a shallow embedding of that program:
* machine integers are modelled as `Nat`/`Int` with explicit `% 2^64` /
  `% 2^32` where the Rust code relies on wrapping arithmetic;
* the pixel buffer of a decoded image is modelled as a row-major list of
  grayscale values (the code converts every image with `to_luma8` before
  hashing, so a single channel suffices);
* the `HashMap<u64, Vec<usize>>` per side is modelled as the function from
  a key to the list of piece indices pushed for that key; `build_hash_map`
  pushes indices in ascending order, so the list for a key is exactly the
  ascending filter of the indices whose hash on that side equals the key;
* `Vec` used as a work stack is modelled as a list whose head is the top;
* the `while let Some(..) = stack.pop()` loop is modelled with explicit
  fuel, and an out-of-bounds index (a Rust panic) is modelled as a
  distinguished `panicked` result;
* `sort_unstable_by` is modelled as the insertion sort that Rust's
  `slice::sort_unstable_by` performs for slices of at most 20 elements
  (shift the new element left while the comparator returns `Less`); every
  concrete piece list evaluated in this file has fewer than 21 elements,
  so the model agrees with the Rust implementation on all of them.
-/

/-- `PUZZLE_GRID_SIZE` from the source: the grid is 16x16 tiles. -/
def PUZZLE_GRID_SIZE : Nat := 16

/-- `HASH_MAGIC_NUMBER` from the source. -/
def HASH_MAGIC_NUMBER : Nat := 0x9e379967

/-- `IMAGE_WIDTH` from the source. -/
def IMAGE_WIDTH : Nat := 3840

/-- `IMAGE_HEIGHT` from the source. -/
def IMAGE_HEIGHT : Nat := 2160

/-- `FIRST_COL_WIDTH` from the source: width of a first-column tile. -/
def FIRST_COL_WIDTH : Nat := 240

/-- `FIRST_ROW_HEIGHT` from the source: height of a first-row tile. -/
def FIRST_ROW_HEIGHT : Nat := 135

/-- Modulus of Rust's `u64` wrapping arithmetic. -/
def U64 : Nat := 2 ^ 64

/-- Modulus of Rust's `u32` wrapping arithmetic. -/
def U32 : Nat := 2 ^ 32

/-- The `Side` enum from the source; the discriminant order (Left, Top,
Right, Bottom) matches the `edge_hashes` array layout and `OFFSETS`. -/
inductive Side where
  | left
  | top
  | right
  | bottom
deriving DecidableEq, Repr

/-- `OFFSETS` from the source: per-side (col,row) direction vectors,
indexed by the `Side` discriminant: `[(-1,0),(0,-1),(1,0),(0,1)]`. -/
def OFFSETS : Side → Int × Int
  | .left => (-1, 0)
  | .top => (0, -1)
  | .right => (1, 0)
  | .bottom => (0, 1)

/-- A decoded image, after the `to_luma8` grayscale conversion the source
applies before fingerprinting: `rows` holds the pixel intensities in
row-major order (`rows[y][x]` is the pixel at column `x`, row `y`). -/
structure ImageData where
  width : Nat
  height : Nat
  rows : List (List Nat)
deriving DecidableEq, Repr

/-- Pixel access for an `ImageData` (in-bounds for well-formed images). -/
def ImageData.px (img : ImageData) (x y : Nat) : Nat :=
  (img.rows.getD y []).getD x 0

/-- The single step of `compute_hash`'s fold, on `u64` values: quantize the
pixel by integer division by 10, add the magic constant, fold with the
`hash += hash << 6; hash += hash >> 2` mixing, all wrapping mod 2^64. -/
def hash_step (h p : Nat) : Nat :=
  let h1 := (h + (p / 10 + HASH_MAGIC_NUMBER)) % U64
  let h2 := (h1 + h1 * 2 ^ 6 % U64) % U64
  (h2 + h2 / 2 ^ 2) % U64

/-- `compute_hash` from the source: fold the strip's pixels (in the strip's
fixed reading order) starting from 0. -/
def compute_hash (strip : List Nat) : Nat :=
  strip.foldl hash_step 0

/-- The left border strip: `gray.view(0, 0, 1, height)`, pixels read
top-to-bottom. -/
def ImageData.leftStrip (img : ImageData) : List Nat :=
  (List.range img.height).map (fun y => img.px 0 y)

/-- The top border strip: `gray.view(0, 0, width, 1)`, pixels read
left-to-right. -/
def ImageData.topStrip (img : ImageData) : List Nat :=
  (List.range img.width).map (fun x => img.px x 0)

/-- The right border strip: `gray.view(width - 1, 0, 1, height)`. -/
def ImageData.rightStrip (img : ImageData) : List Nat :=
  (List.range img.height).map (fun y => img.px (img.width - 1) y)

/-- The bottom border strip: `gray.view(0, height - 1, width, 1)`. -/
def ImageData.bottomStrip (img : ImageData) : List Nat :=
  (List.range img.width).map (fun x => img.px x (img.height - 1))

/-- `PuzzlePiece` from the source.  `col`/`row` are `i32` coordinates with
`-1` meaning unresolved; the four edge hashes are stored as separate fields
in the `edge_hashes` array order (left, top, right, bottom). -/
structure PuzzlePiece where
  image : ImageData
  col : Int
  row : Int
  ehL : Nat
  ehT : Nat
  ehR : Nat
  ehB : Nat
deriving DecidableEq, Repr

/-- `edge_hashes[side as usize]` from the source. -/
def PuzzlePiece.edgeHash (p : PuzzlePiece) : Side → Nat
  | .left => p.ehL
  | .top => p.ehT
  | .right => p.ehR
  | .bottom => p.ehB

/-- `PuzzlePiece::new` from the source: classify anchors from the decoded
dimensions (width `FIRST_COL_WIDTH` gives `col = 0`, height
`FIRST_ROW_HEIGHT` gives `row = 0`, otherwise `-1`) and compute the four
edge hashes (`compute_edge_hashes`). -/
def PuzzlePiece.new (image : ImageData) : PuzzlePiece :=
  { image := image
    col := if image.width = FIRST_COL_WIDTH then 0 else -1
    row := if image.height = FIRST_ROW_HEIGHT then 0 else -1
    ehL := compute_hash image.leftStrip
    ehT := compute_hash image.topStrip
    ehR := compute_hash image.rightStrip
    ehB := compute_hash image.bottomStrip }

/-- The value of a signed `i32` coordinate cast with `as u32`
(two's-complement wrap). -/
def u32ofInt (i : Int) : Nat :=
  (i % (U32 : Int)).toNat

/-- `PuzzlePiece::rect` from the source, with `u32` wrapping arithmetic
made explicit: `x = FIRST_COL_WIDTH * (col as u32) - (1 if col > 0)`,
`y = FIRST_ROW_HEIGHT * (row as u32) - (1 if row > 0)`, and the piece's
own image dimensions. -/
def PuzzlePiece.rect (p : PuzzlePiece) : Nat × Nat × Nat × Nat :=
  let x0 := FIRST_COL_WIDTH * u32ofInt p.col % U32
  let x := if 0 < p.col then (x0 + U32 - 1) % U32 else x0
  let y0 := FIRST_ROW_HEIGHT * u32ofInt p.row % U32
  let y := if 0 < p.row then (y0 + U32 - 1) % U32 else y0
  (x, y, p.image.width, p.image.height)

/-- The comparator closure passed to `sort_unstable_by` in
`assemble_puzzle`: anchors (`col == 0 || row == 0`) before non-anchors,
the full origin (`col == 0 && row == 0`) before everything else, remaining
ties ordered by `(col + row)`. -/
def piece_cmp (a b : PuzzlePiece) : Ordering :=
  if (a.col = 0 ∨ a.row = 0) ∧ (b.col ≠ 0 ∧ b.row ≠ 0) then .lt
  else if (b.col = 0 ∨ b.row = 0) ∧ (a.col ≠ 0 ∧ a.row ≠ 0) then .gt
  else if a.col = 0 ∧ a.row = 0 then .lt
  else if b.col = 0 ∧ b.row = 0 then .gt
  else compare (a.col + a.row) (b.col + b.row)

/-- One insertion step of the insertion sort performed by
`sort_unstable_by` on short slices: the accumulator holds the already
sorted prefix in reversed order, and the new element is shifted left past
exactly those elements against which the comparator answers `Less`. -/
def insertRev (a : PuzzlePiece) : List PuzzlePiece → List PuzzlePiece
  | [] => [a]
  | b :: l => if piece_cmp a b = .lt then b :: insertRev a l else a :: b :: l

/-- The in-place `pieces.sort_unstable_by(..)` call of `assemble_puzzle`,
as the insertion sort Rust uses for slices of at most 20 elements. -/
def sort_pieces (l : List PuzzlePiece) : List PuzzlePiece :=
  (l.foldl (fun acc x => insertRev x acc) []).reverse

/-- `build_hash_map` from the source, fused with the `get` lookup the
traversal performs: for a side and a fingerprint key, the `Vec<usize>`
stored in that side's `HashMap` is the list of piece indices pushed for
that key, i.e. the ascending list of indices whose hash on that side
equals the key (an absent key yields the empty list, as `get(..)` followed
by `and_then(find)` yields no candidate). -/
def build_hash_map (pieces : List PuzzlePiece) (side : Side) (h : Nat) : List Nat :=
  (List.range pieces.length).filter fun i =>
    match pieces[i]? with
    | some p => p.edgeHash side == h
    | none => false

/-- The unresolved test `pieces[id].col == -1 || pieces[id].row == -1`
from the candidate filter (false when the index is out of bounds, which
never happens for indices produced by `build_hash_map`). -/
def unresolvedAt (pieces : List PuzzlePiece) (id : Nat) : Bool :=
  match pieces[id]? with
  | some p => p.col == -1 || p.row == -1
  | none => false

/-- The candidate filter closure of the traversal:
`id != current_index && (pieces[id].col == -1 || pieces[id].row == -1)`. -/
def eligibleB (pieces : List PuzzlePiece) (cur id : Nat) : Bool :=
  id != cur && unresolvedAt pieces id

/-- One arm of the `for (side, opposite_side) in [(Right,Left),(Bottom,Top)]`
loop body of `assemble_puzzle`: look the current piece's `side` hash up in
the `opposite_side` map, take the first candidate that is not the current
piece and is unresolved, and if one exists overwrite its coordinates with
the captured `(col,row)` plus `OFFSETS[side]` and push it.  `none` models
the panic of an out-of-bounds index. -/
def expandSide (hm : Side → Nat → List Nat) (pieces : List PuzzlePiece)
    (cur : Nat) (c r : Int) (side opp : Side) (stack : List Nat) :
    Option (List PuzzlePiece × List Nat) :=
  match pieces[cur]? with
  | none => none
  | some curPiece =>
    match (hm opp (curPiece.edgeHash side)).find? (eligibleB pieces cur) with
    | none => some (pieces, stack)
    | some id =>
      match pieces[id]? with
      | none => none
      | some p =>
        some (pieces.set id
          { p with col := c + (OFFSETS side).1, row := r + (OFFSETS side).2 },
          id :: stack)

/-- One iteration of the `while let Some(current_index) = stack.pop()`
loop: read the popped piece's coordinates (a panic if the index is out of
bounds), skip expansion entirely when they equal the terminal cell
`(PUZZLE_GRID_SIZE-1, PUZZLE_GRID_SIZE-1)`, otherwise run the Right/Left
expansion followed by the Bottom/Top expansion (the second one sees the
first one's mutations, exactly as in the source). -/
def runStep (hm : Side → Nat → List Nat) (pieces : List PuzzlePiece)
    (idx : Nat) (rest : List Nat) : Option (List PuzzlePiece × List Nat) :=
  match pieces[idx]? with
  | none => none
  | some cur =>
    if cur.col = (PUZZLE_GRID_SIZE : Int) - 1 ∧ cur.row = (PUZZLE_GRID_SIZE : Int) - 1 then
      some (pieces, rest)
    else
      match expandSide hm pieces idx cur.col cur.row .right .left rest with
      | none => none
      | some (p1, s1) => expandSide hm p1 idx cur.col cur.row .bottom .top s1

/-- Result of running the assembly loop: the loop either drains the stack
(`done`), hits an out-of-bounds index, i.e. a Rust panic (`panicked`), or
the fuel runs out before the stack drains (`fuelOut`; the Rust loop has no
fuel, so `fuelOut` only means the chosen bound was not enough). -/
inductive RunResult where
  | done (pieces : List PuzzlePiece)
  | panicked
  | fuelOut
deriving DecidableEq, Repr

/-- The `while` loop of `assemble_puzzle`, with explicit fuel.  The stack
is a list whose head is the `Vec`'s top (so `push` is cons and `pop` takes
the head). -/
def runLoop (hm : Side → Nat → List Nat) : Nat → List PuzzlePiece → List Nat → RunResult
  | _, pieces, [] => .done pieces
  | 0, _, _ :: _ => .fuelOut
  | fuel + 1, pieces, idx :: rest =>
    match runStep hm pieces idx rest with
    | none => .panicked
    | some (p', s') => runLoop hm fuel p' s'

/-- `assemble_puzzle` from the source: sort the pieces in place, build the
per-side hash maps once from the sorted array, seed the stack with index 0
and run the traversal loop. -/
def assemble_puzzle (fuel : Nat) (pieces : List PuzzlePiece) : RunResult :=
  let sorted := sort_pieces pieces
  runLoop (build_hash_map sorted) fuel sorted [0]

/-- `load_puzzle` from the source.  Directory enumeration and decoding are
external collaborators; each directory entry is modelled by its outcome, a
decoded image or an error.  The parallel `collect::<Result<Vec<_>,_>>`
yields `Ok` of all pieces when every entry decodes and otherwise an `Err`
carrying one of the failures (which one rayon surfaces is
scheduling-dependent; this model returns the first in directory order, and
no theorem below depends on which error is chosen). -/
def load_puzzle (entries : List (Except String ImageData)) :
    Except String (List PuzzlePiece) :=
  match entries with
  | [] => .ok []
  | .error msg :: _ => .error msg
  | .ok img :: rest =>
    match load_puzzle rest with
    | .error msg => .error msg
    | .ok ps => .ok (PuzzlePiece.new img :: ps)

/-- The ingestion-then-assembly prefix of `main`: `load_puzzle(..)?`
followed by `assemble_puzzle`; the `?` operator aborts the run before any
assembly happens when ingestion fails. -/
def run_pipeline (entries : List (Except String ImageData)) (fuel : Nat) :
    Except String RunResult :=
  match load_puzzle entries with
  | .error msg => .error msg
  | .ok ps => .ok (assemble_puzzle fuel ps)

/-- The compositor's per-piece range check in `main`:
`col >= 0 && row >= 0 && col < PUZZLE_GRID_SIZE && row < PUZZLE_GRID_SIZE`. -/
def inGrid (p : PuzzlePiece) : Bool :=
  decide (0 ≤ p.col) && decide (0 ≤ p.row) &&
    decide (p.col < (PUZZLE_GRID_SIZE : Int)) && decide (p.row < (PUZZLE_GRID_SIZE : Int))

/-- Projection used to state concrete facts about a finished run: the
coordinates of the piece at a given index of the final array. -/
def coordsAtIdx (r : RunResult) (i : Nat) : Option (Int × Int) :=
  match r with
  | .done l =>
    match l[i]? with
    | some p => some (p.col, p.row)
    | none => none
  | _ => none

/-- Projection used to state concrete facts about a finished run: the
coordinates of the (unique, in the inputs below) piece whose fingerprint
on the given side equals the given key; identifies a tile by content
rather than by position, across runs with different ingestion orders. -/
def finalCoordsOfEdge (r : RunResult) (s : Side) (k : Nat) : Option (Int × Int) :=
  match r with
  | .done l => (l.find? (fun p => p.edgeHash s == k)).map (fun p => (p.col, p.row))
  | _ => none

/-- Projection: the whole piece at a given index of the final array. -/
def pieceAtIdx (r : RunResult) (i : Nat) : Option PuzzlePiece :=
  match r with
  | .done l => l[i]?
  | _ => none

/-! ### Basic facts about the embedding -/

/-- A `true` unresolved test means the index is in bounds and the piece
there has an unresolved coordinate. -/
lemma unresolvedAt_eq_true {pieces : List PuzzlePiece} {id : Nat} :
    unresolvedAt pieces id = true ↔
      ∃ p, pieces[id]? = some p ∧ (p.col = -1 ∨ p.row = -1) := by
  unfold unresolvedAt
  cases hq : pieces[id]? with
  | none => simp
  | some p => simp [hq]

/-- Overwriting only the coordinates of a piece leaves every edge hash
unchanged. -/
lemma edgeHash_update (p : PuzzlePiece) (a b : Int) (s : Side) :
    ({ p with col := a, row := b } : PuzzlePiece).edgeHash s = p.edgeHash s := by
  cases s <;> rfl

/-- Membership in the modelled hash map is exactly an in-bounds index with
the matching fingerprint on that side. -/
lemma mem_build_hash_map {pieces : List PuzzlePiece} {s : Side} {h : Nat} {id : Nat} :
    id ∈ build_hash_map pieces s h ↔
      ∃ q, pieces[id]? = some q ∧ q.edgeHash s = h := by
  unfold build_hash_map
  rw [List.mem_filter, List.mem_range]
  cases hq : pieces[id]? with
  | none =>
    simp only [hq]
    constructor
    · rintro ⟨-, h2⟩; cases h2
    · rintro ⟨q, hq2, -⟩; cases hq2
  | some q =>
    have hlen : id < pieces.length := by
      rcases List.getElem?_eq_some.mp hq with ⟨h1, -⟩
      exact h1
    simp [hq, hlen]

/-- Every index produced by the modelled hash map is in bounds. -/
lemma mem_build_hash_map_lt {pieces : List PuzzlePiece} {s : Side} {h : Nat} {id : Nat}
    (hmem : id ∈ build_hash_map pieces s h) : id < pieces.length := by
  rcases mem_build_hash_map.mp hmem with ⟨q, hq, -⟩
  rcases List.getElem?_eq_some.mp hq with ⟨h1, -⟩
  exact h1

/-- Case analysis of a successful `expandSide`: the side either found no
eligible candidate and left the state alone, or it selected an eligible
candidate `id` from the hash-map list, overwrote both of its coordinates
with the captured coordinates plus the side's direction vector, and pushed
it. -/
lemma expandSide_cases {hm : Side → Nat → List Nat} {pieces : List PuzzlePiece}
    {cur : Nat} {c r : Int} {s o : Side} {st : List Nat}
    {p' : List PuzzlePiece} {st' : List Nat}
    (h : expandSide hm pieces cur c r s o st = some (p', st')) :
    ∃ cp, pieces[cur]? = some cp ∧
      ((p' = pieces ∧ st' = st ∧
          (hm o (cp.edgeHash s)).find? (eligibleB pieces cur) = none) ∨
        ∃ id p, (hm o (cp.edgeHash s)).find? (eligibleB pieces cur) = some id ∧
          id ∈ hm o (cp.edgeHash s) ∧ id ≠ cur ∧
          pieces[id]? = some p ∧ (p.col = -1 ∨ p.row = -1) ∧
          p' = pieces.set id
            { p with col := c + (OFFSETS s).1, row := r + (OFFSETS s).2 } ∧
          st' = id :: st) := by
  unfold expandSide at h
  split at h
  · exact Option.noConfusion h
  next cp hcur =>
    refine ⟨cp, hcur, ?_⟩
    split at h
    next hfind =>
      left
      injection h with h12
      rw [Prod.mk.injEq] at h12
      obtain ⟨rfl, rfl⟩ := h12
      exact ⟨rfl, rfl, hfind⟩
    next id hfind =>
      have helig : eligibleB pieces cur id = true := List.find?_some hfind
      have hmem : id ∈ hm o (cp.edgeHash s) := List.mem_of_find?_eq_some hfind
      unfold eligibleB at helig
      rw [Bool.and_eq_true] at helig
      obtain ⟨hne, hunres⟩ := helig
      rcases unresolvedAt_eq_true.mp hunres with ⟨p, hp, hpu⟩
      split at h
      · exact Option.noConfusion h
      next p2 hp2 =>
        rw [hp] at hp2
        obtain rfl : p = p2 := Option.some.inj hp2
        right
        injection h with h12
        rw [Prod.mk.injEq] at h12
        obtain ⟨rfl, rfl⟩ := h12
        exact ⟨id, p, hfind, hmem, by simpa using hne, hp, hpu, rfl, rfl⟩

/-- `expandSide` never panics when the current index is in bounds: the
only indices it dereferences beyond `cur` come from an eligible candidate,
whose unresolved test already dereferenced it. -/
lemma expandSide_isSome {hm : Side → Nat → List Nat} {pieces : List PuzzlePiece}
    {cur : Nat} {c r : Int} {s o : Side} {st : List Nat} {cp : PuzzlePiece}
    (hcur : pieces[cur]? = some cp) :
    ∃ p' st', expandSide hm pieces cur c r s o st = some (p', st') := by
  cases hres : expandSide hm pieces cur c r s o st with
  | some pr =>
    obtain ⟨a, b⟩ := pr
    exact ⟨a, b, rfl⟩
  | none =>
    exfalso
    unfold expandSide at hres
    split at hres
    next hnone => rw [hcur] at hnone; exact Option.noConfusion hnone
    next cp2 hcur2 =>
      split at hres
      · exact Option.noConfusion hres
      next id hfind =>
        have helig : eligibleB pieces cur id = true := List.find?_some hfind
        unfold eligibleB at helig
        rw [Bool.and_eq_true] at helig
        rcases unresolvedAt_eq_true.mp helig.2 with ⟨p, hp, -⟩
        split at hres
        next hpnone => rw [hp] at hpnone; exact Option.noConfusion hpnone
        next p2 hp2 => exact Option.noConfusion hres

/-- A successful `expandSide` preserves the number of pieces. -/
lemma expandSide_length {hm : Side → Nat → List Nat} {pieces : List PuzzlePiece}
    {cur : Nat} {c r : Int} {s o : Side} {st : List Nat}
    {p' : List PuzzlePiece} {st' : List Nat}
    (h : expandSide hm pieces cur c r s o st = some (p', st')) :
    p'.length = pieces.length := by
  rcases expandSide_cases h with ⟨cp, -, hcase | ⟨id, p, -, -, -, -, -, hset, -⟩⟩
  · rw [hcase.1]
  · rw [hset, List.length_set]

/-- A piece whose two coordinates are already non-negative is untouched by
an expansion step: the candidate filter only accepts pieces with an
unresolved coordinate. -/
lemma expandSide_frozen {hm : Side → Nat → List Nat} {pieces : List PuzzlePiece}
    {cur : Nat} {c r : Int} {s o : Side} {st : List Nat}
    {p' : List PuzzlePiece} {st' : List Nat}
    (h : expandSide hm pieces cur c r s o st = some (p', st'))
    {i : Nat} {q : PuzzlePiece} (hq : pieces[i]? = some q)
    (hc : 0 ≤ q.col) (hr : 0 ≤ q.row) : p'[i]? = some q := by
  rcases expandSide_cases h with ⟨cp, -, hcase | ⟨id, p, -, -, -, hp, hpu, hset, -⟩⟩
  · rw [hcase.1]; exact hq
  · rw [hset]
    rcases eq_or_ne id i with hii | hii
    · subst hii
      rw [hp] at hq
      obtain rfl : p = q := Option.some.inj hq
      rcases hpu with h1 | h1 <;> omega
    · rw [List.getElem?_set_ne hii]; exact hq

/-- An expansion step never moves the current piece: the selected
candidate, if any, is distinct from the current index. -/
lemma expandSide_cur_unchanged {hm : Side → Nat → List Nat} {pieces : List PuzzlePiece}
    {cur : Nat} {c r : Int} {s o : Side} {st : List Nat}
    {p' : List PuzzlePiece} {st' : List Nat}
    (h : expandSide hm pieces cur c r s o st = some (p', st')) :
    p'[cur]? = pieces[cur]? := by
  rcases expandSide_cases h with ⟨cp, hcur, hcase | ⟨id, p, -, -, hne, -, -, hset, -⟩⟩
  · rw [hcase.1]
  · rw [hset, List.getElem?_set_ne hne]

/-- Case analysis of a successful loop iteration: either the popped piece
sits at the terminal cell and expansion is skipped, or the Right/Left
expansion runs and the Bottom/Top expansion runs on its result. -/
lemma runStep_cases {hm : Side → Nat → List Nat} {pieces : List PuzzlePiece}
    {idx : Nat} {rest : List Nat} {p' : List PuzzlePiece} {s' : List Nat}
    (h : runStep hm pieces idx rest = some (p', s')) :
    ∃ cp, pieces[idx]? = some cp ∧
      ((p' = pieces ∧ s' = rest ∧
          cp.col = (PUZZLE_GRID_SIZE : Int) - 1 ∧ cp.row = (PUZZLE_GRID_SIZE : Int) - 1) ∨
        ∃ p1 s1,
          expandSide hm pieces idx cp.col cp.row .right .left rest = some (p1, s1) ∧
          expandSide hm p1 idx cp.col cp.row .bottom .top s1 = some (p', s')) := by
  unfold runStep at h
  split at h
  · exact Option.noConfusion h
  next cp hcur =>
    refine ⟨cp, hcur, ?_⟩
    split at h
    next hterm =>
      left
      injection h with h12
      rw [Prod.mk.injEq] at h12
      obtain ⟨rfl, rfl⟩ := h12
      exact ⟨rfl, rfl, hterm.1, hterm.2⟩
    next hterm =>
      right
      split at h
      · exact Option.noConfusion h
      next p1 s1 hexp1 =>
        exact ⟨p1, s1, hexp1, h⟩

/-- A loop iteration never panics when the popped index is in bounds. -/
lemma runStep_isSome {hm : Side → Nat → List Nat} {pieces : List PuzzlePiece}
    {idx : Nat} {rest : List Nat} {cp : PuzzlePiece}
    (hcur : pieces[idx]? = some cp) :
    ∃ p' s', runStep hm pieces idx rest = some (p', s') := by
  cases hres : runStep hm pieces idx rest with
  | some pr =>
    obtain ⟨a, b⟩ := pr
    exact ⟨a, b, rfl⟩
  | none =>
    exfalso
    unfold runStep at hres
    split at hres
    next hnone => rw [hcur] at hnone; exact Option.noConfusion hnone
    next cp2 hcur2 =>
      split at hres
      · exact Option.noConfusion hres
      next hterm =>
        split at hres
        next hexp1 =>
          obtain ⟨p1, s1, hexp1s⟩ :=
            @expandSide_isSome hm pieces idx cp2.col cp2.row Side.right Side.left rest cp2 hcur2
          rw [hexp1s] at hexp1
          exact Option.noConfusion hexp1
        next p1 s1 hexp1 =>
          have hcur1 : p1[idx]? = some cp2 := by
            rw [expandSide_cur_unchanged hexp1]; exact hcur2
          obtain ⟨p2, s2, hexp2s⟩ :=
            @expandSide_isSome hm p1 idx cp2.col cp2.row Side.bottom Side.top s1 cp2 hcur1
          rw [hexp2s] at hres
          exact Option.noConfusion hres

/-- Over any number of loop iterations, a piece whose two coordinates are
non-negative is never modified again: the state machine is one-way. -/
lemma runLoop_frozen (hm : Side → Nat → List Nat) :
    ∀ fuel pieces stack final,
      runLoop hm fuel pieces stack = RunResult.done final →
      ∀ (i : Nat) (q : PuzzlePiece),
        pieces[i]? = some q → 0 ≤ q.col → 0 ≤ q.row → final[i]? = some q := by
  intro fuel
  induction fuel with
  | zero =>
    intro pieces stack final h i q hq hc hr
    cases stack with
    | nil =>
      obtain rfl : pieces = final := by simpa [runLoop] using h
      exact hq
    | cons a t => simp [runLoop] at h
  | succ fuel ih =>
    intro pieces stack final h i q hq hc hr
    cases stack with
    | nil =>
      obtain rfl : pieces = final := by simpa [runLoop] using h
      exact hq
    | cons idx rest =>
      simp only [runLoop] at h
      cases hrs : runStep hm pieces idx rest with
      | none => exact RunResult.noConfusion (by simpa only [hrs] using h)
      | some pr =>
        obtain ⟨p', s'⟩ := pr
        simp only [hrs] at h
        rcases runStep_cases hrs with
          ⟨cp, hcur, ⟨hp, hs, -, -⟩ | ⟨p1, s1, hexp1, hexp2⟩⟩
        · rw [hp, hs] at h
          exact ih pieces rest final h i q hq hc hr
        · have hq1 : p1[i]? = some q := expandSide_frozen hexp1 hq hc hr
          have hq2 : p'[i]? = some q := expandSide_frozen hexp2 hq1 hc hr
          exact ih p' s' final h i q hq2 hc hr

/-- The unresolved predicate on a piece, as used by the candidate filter. -/
def unresP (q : PuzzlePiece) : Bool :=
  q.col == -1 || q.row == -1

/-- Stack sanity: every index on the work stack is in bounds and its piece
already has two non-negative coordinates. -/
def GoodStack (pieces : List PuzzlePiece) (stack : List Nat) : Prop :=
  ∀ k ∈ stack, ∃ q : PuzzlePiece, pieces[k]? = some q ∧ 0 ≤ q.col ∧ 0 ≤ q.row

/-- Replacing an unresolved piece by a resolved one decreases the
unresolved count by exactly one. -/
lemma countP_set_resolved :
    ∀ (l : List PuzzlePiece) (i : Nat) (p p' : PuzzlePiece),
      l[i]? = some p → unresP p = true → unresP p' = false →
      (l.set i p').countP unresP + 1 = l.countP unresP := by
  intro l
  induction l with
  | nil => intro i p p' hp _ _; simp at hp
  | cons a t iht =>
    intro i p p' hp hpu hpr
    cases i with
    | zero =>
      obtain rfl : a = p := Option.some.inj (by simpa using hp)
      simp [List.countP_cons, hpu, hpr]
    | succ n =>
      have hrec := iht n p p' (by simpa using hp) hpu hpr
      simp only [List.set_cons_succ, List.countP_cons]
      omega

/-- Combined bookkeeping for one expansion on a forward side with a
resolved source: length is preserved, resolved pieces are untouched, every
new stack entry is a freshly resolved in-bounds piece, and the measure
twice the number of unresolved pieces plus the stack length
does not increase. -/
lemma expandSide_good {hm : Side → Nat → List Nat} {pieces : List PuzzlePiece}
    {cur : Nat} {c r : Int} {s o : Side} {st : List Nat}
    {p' : List PuzzlePiece} {st' : List Nat}
    (h : expandSide hm pieces cur c r s o st = some (p', st'))
    (hc : 0 ≤ c) (hr : 0 ≤ r) (hs : s = Side.right ∨ s = Side.bottom) :
    p'.length = pieces.length ∧
    (∀ k ∈ st', k ∈ st ∨ ∃ q : PuzzlePiece, p'[k]? = some q ∧ 0 ≤ q.col ∧ 0 ≤ q.row) ∧
    2 * p'.countP unresP + st'.length ≤ 2 * pieces.countP unresP + st.length := by
  rcases expandSide_cases h with
    ⟨cp, hcur, ⟨rfl, rfl, -⟩ | ⟨id, p, -, -, -, hp, hpu, hset, hstack⟩⟩
  · exact ⟨rfl, fun k hk => Or.inl hk, le_refl _⟩
  · have hoff1 : 0 ≤ (OFFSETS s).1 := by
      rcases hs with rfl | rfl <;> simp [OFFSETS]
    have hoff2 : 0 ≤ (OFFSETS s).2 := by
      rcases hs with rfl | rfl <;> simp [OFFSETS]
    have hidlt : id < pieces.length := by
      rcases List.getElem?_eq_some.mp hp with ⟨h1, -⟩
      exact h1
    have hnewget : p'[id]? = some
        { p with col := c + (OFFSETS s).1, row := r + (OFFSETS s).2 } := by
      rw [hset]
      exact List.getElem?_set_eq_of_lt _ hidlt
    have hunp : unresP p = true := by
      unfold unresP
      rcases hpu with h1 | h1 <;> simp [h1]
    have hunp' : unresP
        ({ p with col := c + (OFFSETS s).1, row := r + (OFFSETS s).2 } : PuzzlePiece) = false := by
      unfold unresP
      simp only [Bool.or_eq_false_iff, beq_eq_false_iff_ne]
      constructor <;> intro hcontra <;> omega
    have hcount := countP_set_resolved pieces id p _ hp hunp hunp'
    rw [← hset] at hcount
    refine ⟨by rw [hset, List.length_set], ?_, ?_⟩
    · intro k hk
      rcases List.mem_cons.mp (hstack ▸ hk) with rfl | hk2
      · exact Or.inr ⟨_, hnewget, by simp; omega, by simp; omega⟩
      · exact Or.inl hk2
    · rw [hstack]
      simp only [List.length_cons]
      omega

/-- Under a well-formed hash map and a good stack, enough fuel drains the
stack: every loop iteration strictly decreases
twice the number of unresolved pieces plus the stack length, because
a push happens only when an
unresolved piece becomes resolved (its new coordinates are the resolved
source's coordinates plus a non-negative offset), and a resolved piece is
never pushed again. -/
lemma runLoop_done_of_measure (hm : Side → Nat → List Nat) :
    ∀ (fuel : Nat) (pieces : List PuzzlePiece) (stack : List Nat),
      GoodStack pieces stack →
      2 * pieces.countP unresP + stack.length < fuel →
      ∃ final, runLoop hm fuel pieces stack = RunResult.done final := by
  intro fuel
  induction fuel with
  | zero => intro pieces stack _ hlt; exact absurd hlt (Nat.not_lt_zero _)
  | succ fuel ih =>
    intro pieces stack hgood hlt
    cases stack with
    | nil => exact ⟨pieces, by simp [runLoop]⟩
    | cons idx rest =>
      obtain ⟨cp, hcur, hcc, hcr⟩ := hgood idx (List.mem_cons_self idx rest)
      obtain ⟨p', s', hrs⟩ := @runStep_isSome hm pieces idx rest cp hcur
      have hgoodrest : GoodStack pieces rest :=
        fun k hk => hgood k (List.mem_cons_of_mem _ hk)
      rcases runStep_cases hrs with ⟨cp2, hcur2, ⟨hp, hsx, -, -⟩ | ⟨p1, s1, hexp1, hexp2⟩⟩
      · obtain ⟨final, hfin⟩ := ih pieces rest hgoodrest (by
          simp only [List.length_cons] at hlt; omega)
        refine ⟨final, ?_⟩
        simp only [runLoop, hrs]
        rw [hp, hsx]
        exact hfin
      · obtain rfl : cp = cp2 := Option.some.inj (hcur ▸ hcur2)
        obtain ⟨hlen1, hstk1, hmea1⟩ := expandSide_good hexp1 hcc hcr (Or.inl rfl)
        obtain ⟨hlen2, hstk2, hmea2⟩ := expandSide_good hexp2 hcc hcr (Or.inr rfl)
        have hgood1 : GoodStack p1 s1 := by
          intro k hk
          rcases hstk1 k hk with hk2 | hnew
          · obtain ⟨q, hqget, hq1, hq2⟩ := hgoodrest k hk2
            exact ⟨q, expandSide_frozen hexp1 hqget hq1 hq2, hq1, hq2⟩
          · exact hnew
        have hgood2 : GoodStack p' s' := by
          intro k hk
          rcases hstk2 k hk with hk2 | hnew
          · obtain ⟨q, hqget, hq1, hq2⟩ := hgood1 k hk2
            exact ⟨q, expandSide_frozen hexp2 hqget hq1 hq2, hq1, hq2⟩
          · exact hnew
        obtain ⟨final, hfin⟩ := ih p' s' hgood2 (by
          simp only [List.length_cons] at hlt; omega)
        refine ⟨final, ?_⟩
        simp only [runLoop, hrs]
        exact hfin

/-- Placement consistency of a piece array with a ground-truth grid
assignment `pos`: every non-negative coordinate a piece holds agrees with
`pos` at its index. -/
def PlacedPos (pos : Nat → Nat × Nat) (pieces : List PuzzlePiece) : Prop :=
  ∀ (k : Nat) (q : PuzzlePiece), pieces[k]? = some q →
    (0 ≤ q.col → q.col = ((pos k).1 : Int)) ∧ (0 ≤ q.row → q.row = ((pos k).2 : Int))

/-- Hash agreement with the initial (post-sort) array: the traversal only
rewrites coordinates, so hashes never drift from the array the maps were
built from. -/
def SameHashes (pieces0 pieces : List PuzzlePiece) : Prop :=
  ∀ (k : Nat) (q : PuzzlePiece), pieces[k]? = some q →
    ∃ q0 : PuzzlePiece, pieces0[k]? = some q0 ∧ ∀ s : Side, q.edgeHash s = q0.edgeHash s

/-- Geometric consistency of the fingerprints with a ground-truth grid
assignment: a right/left (resp. bottom/top) fingerprint match between two
distinct pieces only happens between horizontal (resp. vertical) grid
neighbours of the ground truth. -/
def AdjConsistent (pos : Nat → Nat × Nat) (pieces0 : List PuzzlePiece) : Prop :=
  ∀ (i j : Nat) (qi qj : PuzzlePiece),
    pieces0[i]? = some qi → pieces0[j]? = some qj → i ≠ j →
    (qi.edgeHash .right = qj.edgeHash .left → pos j = ((pos i).1 + 1, (pos i).2)) ∧
    (qi.edgeHash .bottom = qj.edgeHash .top → pos j = ((pos i).1, (pos i).2 + 1))

/-- One forward-side expansion preserves hash agreement and placement
consistency: the candidate it selects is a fingerprint match of the
resolved source, so the geometric consistency hypothesis pins the
candidate's ground-truth cell to exactly the assigned coordinates. -/
lemma expandSide_pos {pieces0 pieces p' : List PuzzlePiece} {pos : Nat → Nat × Nat}
    {cur : Nat} {cp : PuzzlePiece} {s o : Side} {st st' : List Nat}
    (hadj : AdjConsistent pos pieces0)
    (hsame : SameHashes pieces0 pieces)
    (hplaced : PlacedPos pos pieces)
    (hcur : pieces[cur]? = some cp)
    (hcc : 0 ≤ cp.col) (hcr : 0 ≤ cp.row)
    (hso : (s = Side.right ∧ o = Side.left) ∨ (s = Side.bottom ∧ o = Side.top))
    (h : expandSide (build_hash_map pieces0) pieces cur cp.col cp.row s o st = some (p', st')) :
    SameHashes pieces0 p' ∧ PlacedPos pos p' := by
  rcases expandSide_cases h with
    ⟨cp2, hcur2, ⟨rfl, rfl, -⟩ | ⟨id, p, -, hmem, hne, hp, hpu, hset, hstack⟩⟩
  · exact ⟨hsame, hplaced⟩
  · obtain rfl : cp = cp2 := Option.some.inj (hcur ▸ hcur2)
    rcases mem_build_hash_map.mp hmem with ⟨q0j, hq0j, hq0jhash⟩
    rcases hsame cur cp hcur with ⟨q0i, hq0i, hq0ihash⟩
    have hneji : cur ≠ id := fun hcontra => hne hcontra.symm
    have hmatch : q0i.edgeHash s = q0j.edgeHash o := by
      rw [← hq0ihash s, hq0jhash]
    have hposid : pos id =
        ((pos cur).1 + (OFFSETS s).1.toNat, (pos cur).2 + (OFFSETS s).2.toNat) := by
      rcases hso with ⟨rfl, rfl⟩ | ⟨rfl, rfl⟩
      · have := (hadj cur id q0i q0j hq0i hq0j hneji).1 hmatch
        simpa [OFFSETS] using this
      · have := (hadj cur id q0i q0j hq0i hq0j hneji).2 hmatch
        simpa [OFFSETS] using this
    have hcolcur : cp.col = ((pos cur).1 : Int) := (hplaced cur cp hcur).1 hcc
    have hrowcur : cp.row = ((pos cur).2 : Int) := (hplaced cur cp hcur).2 hcr
    have hnewcol : cp.col + (OFFSETS s).1 = ((pos id).1 : Int) := by
      rw [hposid, hcolcur]
      rcases hso with ⟨rfl, -⟩ | ⟨rfl, -⟩ <;> simp [OFFSETS]
    have hnewrow : cp.row + (OFFSETS s).2 = ((pos id).2 : Int) := by
      rw [hposid, hrowcur]
      rcases hso with ⟨rfl, -⟩ | ⟨rfl, -⟩ <;> simp [OFFSETS]
    constructor
    · intro k q hq
      rcases eq_or_ne id k with rfl | hkne
      · rw [hset, List.getElem?_set_eq_of_lt] at hq
        · obtain rfl := Option.some.inj hq
          rcases hsame id p hp with ⟨q0, hq0, hq0hash⟩
          exact ⟨q0, hq0, fun s2 => by rw [edgeHash_update]; exact hq0hash s2⟩
        · rcases List.getElem?_eq_some.mp hp with ⟨h1, -⟩
          exact h1
      · rw [hset, List.getElem?_set_ne hkne] at hq
        exact hsame k q hq
    · intro k q hq
      rcases eq_or_ne id k with rfl | hkne
      · rw [hset, List.getElem?_set_eq_of_lt] at hq
        · obtain rfl := Option.some.inj hq
          exact ⟨fun _ => hnewcol, fun _ => hnewrow⟩
        · rcases List.getElem?_eq_some.mp hp with ⟨h1, -⟩
          exact h1
      · rw [hset, List.getElem?_set_ne hkne] at hq
        exact hplaced k q hq

/-- Over the whole traversal, placement consistency with a geometrically
consistent ground truth is an invariant: every piece the loop resolves is
resolved at its ground-truth cell. -/
lemma runLoop_placed_pos {pieces0 : List PuzzlePiece} {pos : Nat → Nat × Nat}
    (hadj : AdjConsistent pos pieces0) :
    ∀ (fuel : Nat) (pieces : List PuzzlePiece) (stack : List Nat) (final : List PuzzlePiece),
      SameHashes pieces0 pieces → PlacedPos pos pieces → GoodStack pieces stack →
      runLoop (build_hash_map pieces0) fuel pieces stack = RunResult.done final →
      PlacedPos pos final := by
  intro fuel
  induction fuel with
  | zero =>
    intro pieces stack final hsame hplaced hgood h
    cases stack with
    | nil =>
      obtain rfl : pieces = final := by simpa [runLoop] using h
      exact hplaced
    | cons a t => simp [runLoop] at h
  | succ fuel ih =>
    intro pieces stack final hsame hplaced hgood h
    cases stack with
    | nil =>
      obtain rfl : pieces = final := by simpa [runLoop] using h
      exact hplaced
    | cons idx rest =>
      simp only [runLoop] at h
      cases hrs : runStep (build_hash_map pieces0) pieces idx rest with
      | none => exact RunResult.noConfusion (by simpa only [hrs] using h)
      | some pr =>
        obtain ⟨p', s'⟩ := pr
        simp only [hrs] at h
        have hgoodrest : GoodStack pieces rest :=
          fun k hk => hgood k (List.mem_cons_of_mem _ hk)
        obtain ⟨cp, hcur, hcc, hcr⟩ := hgood idx (List.mem_cons_self idx rest)
        rcases runStep_cases hrs with ⟨cp2, hcur2, ⟨hp, hsx, -, -⟩ | ⟨p1, s1, hexp1, hexp2⟩⟩
        · rw [hp, hsx] at h
          exact ih pieces rest final hsame hplaced hgoodrest h
        · obtain rfl : cp = cp2 := Option.some.inj (hcur ▸ hcur2)
          obtain ⟨hsame1, hplaced1⟩ :=
            expandSide_pos hadj hsame hplaced hcur hcc hcr (Or.inl ⟨rfl, rfl⟩) hexp1
          have hcur1 : p1[idx]? = some cp := by
            rw [expandSide_cur_unchanged hexp1]; exact hcur
          obtain ⟨hsame2, hplaced2⟩ :=
            expandSide_pos hadj hsame1 hplaced1 hcur1 hcc hcr (Or.inr ⟨rfl, rfl⟩) hexp2
          obtain ⟨-, hstk1, -⟩ := expandSide_good hexp1 hcc hcr (Or.inl rfl)
          obtain ⟨-, hstk2, -⟩ := expandSide_good hexp2 hcc hcr (Or.inr rfl)
          have hgood1 : GoodStack p1 s1 := by
            intro k hk
            rcases hstk1 k hk with hk2 | hnew
            · obtain ⟨q, hqget, hq1, hq2⟩ := hgoodrest k hk2
              exact ⟨q, expandSide_frozen hexp1 hqget hq1 hq2, hq1, hq2⟩
            · exact hnew
          have hgood2 : GoodStack p' s' := by
            intro k hk
            rcases hstk2 k hk with hk2 | hnew
            · obtain ⟨q, hqget, hq1, hq2⟩ := hgood1 k hk2
              exact ⟨q, expandSide_frozen hexp2 hqget hq1 hq2, hq1, hq2⟩
            · exact hnew
          exact ih p' s' final hsame2 hplaced2 hgood2 h

/-- A successful `find?` splits its list into a prefix of failing elements,
the found element, and a remainder. -/
lemma find?_eq_some_split {α : Type} {p : α → Bool} :
    ∀ {l : List α} {a : α}, l.find? p = some a →
      ∃ l1 l2, l = l1 ++ a :: l2 ∧ p a = true ∧ ∀ x ∈ l1, p x = false := by
  intro l
  induction l with
  | nil => intro a h; simp at h
  | cons b t iht =>
    intro a h
    cases hpb : p b with
    | true =>
      rw [List.find?_cons_of_pos _ hpb] at h
      obtain rfl := Option.some.inj h
      exact ⟨[], t, rfl, hpb, by simp⟩
    | false =>
      rw [List.find?_cons_of_neg _ (by simp [hpb])] at h
      obtain ⟨l1, l2, rfl, hpa, hl1⟩ := iht h
      refine ⟨b :: l1, l2, rfl, hpa, ?_⟩
      intro x hx
      rcases List.mem_cons.mp hx with rfl | hx2
      · exact hpb
      · exact hl1 x hx2

/-- `insertRev` grows its list by one element. -/
lemma length_insertRev (a : PuzzlePiece) :
    ∀ l : List PuzzlePiece, (insertRev a l).length = l.length + 1 := by
  intro l
  induction l with
  | nil => rfl
  | cons b t iht =>
    unfold insertRev
    split
    · simp [iht]
    · simp

/-- Sorting preserves the number of pieces. -/
lemma length_sort_pieces (l : List PuzzlePiece) :
    (sort_pieces l).length = l.length := by
  unfold sort_pieces
  rw [List.length_reverse]
  have key : ∀ (l acc : List PuzzlePiece),
      (l.foldl (fun acc x => insertRev x acc) acc).length = l.length + acc.length := by
    intro l
    induction l with
    | nil => intro acc; simp
    | cons b t iht =>
      intro acc
      simp only [List.foldl_cons, iht, length_insertRev, List.length_cons]
      omega
  simpa using key l []

/-- The traversal never changes the number of pieces. -/
lemma runLoop_length (hm : Side → Nat → List Nat) :
    ∀ (fuel : Nat) (pieces : List PuzzlePiece) (stack : List Nat) (final : List PuzzlePiece),
      runLoop hm fuel pieces stack = RunResult.done final →
      final.length = pieces.length := by
  intro fuel
  induction fuel with
  | zero =>
    intro pieces stack final h
    cases stack with
    | nil =>
      obtain rfl : pieces = final := by simpa [runLoop] using h
      rfl
    | cons a t => simp [runLoop] at h
  | succ fuel ih =>
    intro pieces stack final h
    cases stack with
    | nil =>
      obtain rfl : pieces = final := by simpa [runLoop] using h
      rfl
    | cons idx rest =>
      simp only [runLoop] at h
      cases hrs : runStep hm pieces idx rest with
      | none => exact RunResult.noConfusion (by simpa only [hrs] using h)
      | some pr =>
        obtain ⟨p', s'⟩ := pr
        simp only [hrs] at h
        rcases runStep_cases hrs with
          ⟨cp, hcur, ⟨hp, hsx, -, -⟩ | ⟨p1, s1, hexp1, hexp2⟩⟩
        · rw [hp, hsx] at h
          exact ih pieces rest final h
        · rw [ih p' s' final h, expandSide_length hexp2, expandSide_length hexp1]

/-- The selection predicate of the spec, stated in the spec's own words:
`id` is the first candidate in the index entry's insertion order that is
not the current piece and still has an unresolved coordinate. -/
def firstEligible (pieces : List PuzzlePiece) (cur : Nat) (cand : List Nat) (id : Nat) : Prop :=
  ∃ pre post, cand = pre ++ id :: post ∧ eligibleB pieces cur id = true ∧
    ∀ j ∈ pre, eligibleB pieces cur j = false

/-! ### Claim theorems -/

/-- C7.  Fingerprint quantization determinism: `compute_hash` depends only
on the sequence of quantized intensities `pixel / 10` in the strip's
reading order; two strips whose pixels are pairwise equal after integer
division by 10 (hence of equal length) get identical fingerprints. -/
theorem c7_hash_quantization_determinism (ps qs : List Nat)
    (h : ps.map (fun p => p / 10) = qs.map (fun p => p / 10)) :
    compute_hash ps = compute_hash qs := by
  unfold compute_hash
  have key : ∀ (ps qs : List Nat) (a : Nat),
      ps.map (fun p => p / 10) = qs.map (fun p => p / 10) →
      ps.foldl hash_step a = qs.foldl hash_step a := by
    intro ps
    induction ps with
    | nil =>
      intro qs a hmap
      obtain rfl : qs = [] := by
        cases qs with
        | nil => rfl
        | cons q qt => simp at hmap
      rfl
    | cons p pt iht =>
      intro qs a hmap
      cases qs with
      | nil => simp at hmap
      | cons q qt =>
        simp only [List.map_cons, List.cons.injEq] at hmap
        obtain ⟨hq, hqt⟩ := hmap
        simp only [List.foldl_cons]
        have hstep : hash_step a p = hash_step a q := by
          unfold hash_step
          rw [hq]
        rw [hstep]
        exact iht qt (hash_step a q) hqt
  exact key ps qs 0 h

/-- C7 witness: two concrete one-pixel strips with equal quantized values,
fed through the theorem. -/
theorem c7_witness : compute_hash [23] = compute_hash [29] :=
  c7_hash_quantization_determinism [23] [29] (by decide)

/-- C6.  Compositor placement formula: for a piece whose coordinates lie
in `[0, PUZZLE_GRID_SIZE)`, the canvas rectangle origin is
`FIRST_COL_WIDTH * col` minus 1 when `col > 0` (resp. rows), with the
piece's own image dimensions; in particular a piece at `(0,0)` is blitted
at canvas pixel `(0,0)`.  (In this range the `u32` wrapping arithmetic of
`rect` never actually wraps.) -/
theorem c6_rect_formula (p : PuzzlePiece)
    (hc0 : 0 ≤ p.col) (hc1 : p.col < (PUZZLE_GRID_SIZE : Int))
    (hr0 : 0 ≤ p.row) (hr1 : p.row < (PUZZLE_GRID_SIZE : Int)) :
    p.rect = (FIRST_COL_WIDTH * p.col.toNat - (if 0 < p.col then 1 else 0),
        FIRST_ROW_HEIGHT * p.row.toNat - (if 0 < p.row then 1 else 0),
        p.image.width, p.image.height) ∧
      (p.col = 0 → p.row = 0 → p.rect = (0, 0, p.image.width, p.image.height)) := by
  obtain ⟨t, ht⟩ := Int.eq_ofNat_of_zero_le hc0
  obtain ⟨u, hu⟩ := Int.eq_ofNat_of_zero_le hr0
  have ht16 : t < 16 := by
    rw [ht] at hc1
    exact_mod_cast hc1
  have hu16 : u < 16 := by
    rw [hu] at hr1
    exact_mod_cast hr1
  have hmain : p.rect = (FIRST_COL_WIDTH * p.col.toNat - (if 0 < p.col then 1 else 0),
      FIRST_ROW_HEIGHT * p.row.toNat - (if 0 < p.row then 1 else 0),
      p.image.width, p.image.height) := by
    unfold PuzzlePiece.rect u32ofInt
    rw [ht, hu]
    have hmodt : ((t : Int) % (U32 : Int)).toNat = t := by
      rw [Int.emod_eq_of_lt (by positivity) (by unfold U32; exact_mod_cast by omega)]
      exact Int.toNat_natCast t
    have hmodu : ((u : Int) % (U32 : Int)).toNat = u := by
      rw [Int.emod_eq_of_lt (by positivity) (by unfold U32; exact_mod_cast by omega)]
      exact Int.toNat_natCast u
    rw [hmodt, hmodu]
    have hcpos : (0 : Int) < (t : Int) ↔ 0 < t := by exact_mod_cast Iff.rfl
    have hrpos : (0 : Int) < (u : Int) ↔ 0 < u := by exact_mod_cast Iff.rfl
    simp only [hcpos, hrpos, Int.toNat_natCast, FIRST_COL_WIDTH, FIRST_ROW_HEIGHT, U32]
    simp only [Prod.mk.injEq]
    refine ⟨?_, ?_, trivial⟩
    · by_cases hpt : 0 < t
      · rw [if_pos hpt, if_pos hpt]
        omega
      · rw [if_neg hpt, if_neg hpt]
        omega
    · by_cases hpu : 0 < u
      · rw [if_pos hpu, if_pos hpu]
        omega
      · rw [if_neg hpu, if_neg hpu]
        omega
  refine ⟨hmain, fun hc00 hr00 => ?_⟩
  rw [hmain, hc00, hr00]
  norm_num

/-- C6 witness: a concrete piece at grid cell (2, 3) with a 241x136 image,
whose rectangle the theorem pins to (479, 404, 241, 136); the origin
clause is instantiated vacuously. -/
theorem c6_witness :
    ({ image := ⟨241, 136, []⟩, col := 2, row := 3,
        ehL := 0, ehT := 0, ehR := 0, ehB := 0 } : PuzzlePiece).rect =
      (479, 404, 241, 136) := by
  have h := c6_rect_formula
    { image := ⟨241, 136, []⟩, col := 2, row := 3, ehL := 0, ehT := 0, ehR := 0, ehB := 0 }
    (by decide) (by decide) (by decide) (by decide)
  rw [h.1]
  decide

/-- C8.  Ingestion failure is fatal and atomic: if any directory entry
fails to read or decode, `load_puzzle` returns an error rather than any
piece collection, and the `?` in `main` then aborts before assembly. -/
theorem c8_ingestion_failure_fatal (entries : List (Except String ImageData))
    (hfail : ∃ e ∈ entries, ∃ msg, e = Except.error msg) :
    (∃ m, load_puzzle entries = Except.error m) ∧
      ∀ fuel, ∃ m, run_pipeline entries fuel = Except.error m := by
  have hload : ∃ m, load_puzzle entries = Except.error m := by
    induction entries with
    | nil => simp at hfail
    | cons e rest ihr =>
      cases e with
      | error msg => exact ⟨msg, rfl⟩
      | ok img =>
        have hrest : ∃ e ∈ rest, ∃ msg, e = Except.error msg := by
          rcases hfail with ⟨e2, he2, msg, hmsg⟩
          rcases List.mem_cons.mp he2 with rfl | he3
          · cases hmsg
          · exact ⟨e2, he3, msg, hmsg⟩
        obtain ⟨m, hm⟩ := ihr hrest
        refine ⟨m, ?_⟩
        unfold load_puzzle
        rw [hm]
  refine ⟨hload, fun fuel => ?_⟩
  obtain ⟨m, hm⟩ := hload
  refine ⟨m, ?_⟩
  unfold run_pipeline
  rw [hm]

/-- The decode-failure message of the C8 witness entry. -/
def badMsg : String :=
  "bad file"

/-- C8 witness: a two-entry directory whose second entry fails to decode;
both `load_puzzle` and the pipeline surface an error. -/
theorem c8_witness :
    (∃ m, load_puzzle [Except.ok ⟨1, 1, [[0]]⟩, Except.error badMsg] =
        Except.error m) ∧
      ∀ fuel, ∃ m, run_pipeline [Except.ok ⟨1, 1, [[0]]⟩, Except.error badMsg] fuel =
        Except.error m :=
  c8_ingestion_failure_fatal _ ⟨Except.error badMsg, by simp, badMsg, rfl⟩

/-- C9.  The assembler unconditionally seeds the stack with index 0 and
immediately reads `pieces[0]`; on the empty collection this first indexing
operation is out of bounds (a Rust panic), so `assemble_puzzle` is total
only on non-empty collections. -/
theorem c9_empty_input_panics :
    ∀ fuel, assemble_puzzle (fuel + 1) ([] : List PuzzlePiece) = RunResult.panicked := by
  intro fuel
  rfl

/-! ### Concrete ingested tiles used by the counterexamples

All of these are fed through `PuzzlePiece.new`, i.e. they are pieces the
ingestor actually produces from decoded images.  The origin tile is
240x135 (so it is classified `col = 0` and `row = 0`); the 3x135 tiles
are classified as row anchors (`row = 0`, `col = -1`); the 240-wide
tiles of other heights are classified as column anchors (`col = 0`,
`row = -1`).  Matching border strips are pixel-identical, so their
fingerprints coincide by construction. -/

/-- Top (and every) row of the origin tile: all black except intensity 10
in the last column. -/
def oRow : List Nat :=
  (List.range 240).map (fun x => if x = 239 then 10 else 0)

/-- The 240x135 origin tile; its right column is constant intensity 10. -/
def imgOrigin : ImageData :=
  { width := 240, height := 135, rows := List.replicate 135 oRow }

/-- A 3x135 row-anchor tile whose left column (constant 10) matches the
origin's right column, with right column constant 20. -/
def imgRowAnchor1 : ImageData :=
  { width := 3, height := 135, rows := List.replicate 135 [10, 0, 20] }

/-- A 3x135 row-anchor tile whose top row equals `imgRowAnchor1`'s bottom
row `[10, 0, 20]`, and whose remaining rows are `[30, 0, 40]`. -/
def imgRowAnchor2 : ImageData :=
  { width := 3, height := 135, rows := [10, 0, 20] :: List.replicate 134 [30, 0, 40] }

/-- A second 3x135 row-anchor tile whose left column (constant 10) also
matches the origin's right column; its other pixels differ from
`imgRowAnchor1` even after quantization. -/
def imgRowAnchor3 : ImageData :=
  { width := 3, height := 135, rows := List.replicate 135 [10, 40, 50] }

/-- C1 (amended).  Placement is monotonic only for fully placed pieces:
once a piece holds two non-negative coordinates it passes out of the
candidate filter forever, so no later iteration of the traversal loop
modifies it in any way; in particular the origin anchor (col = 0 and
row = 0 at ingestion) keeps both coordinates.  (A piece anchored on a
single axis does not enjoy this: see the counterexample.) -/
theorem c1_fully_placed_piece_never_overwritten (hm : Side → Nat → List Nat)
    (fuel : Nat) (pieces final : List PuzzlePiece) (stack : List Nat)
    (i : Nat) (q : PuzzlePiece)
    (hrun : runLoop hm fuel pieces stack = RunResult.done final)
    (hq : pieces[i]? = some q) (hc : 0 ≤ q.col) (hr : 0 ≤ q.row) :
    final[i]? = some q :=
  runLoop_frozen hm fuel pieces stack final hrun i q hq hc hr

/-- A resolved literal piece used to instantiate hypotheses of the
general theorems (its four fingerprints are distinct, so it matches
nothing, including itself). -/
def pWit : PuzzlePiece :=
  { image := ⟨1, 1, [[0]]⟩, col := 0, row := 0, ehL := 1, ehT := 2, ehR := 3, ehB := 4 }

/-- C1 witness: the loop run on the single already-placed piece `pWit`
leaves it exactly where it is. -/
theorem c1_witness : ([pWit] : List PuzzlePiece)[0]? = some pWit :=
  c1_fully_placed_piece_never_overwritten (fun _ _ => []) 1 [pWit] [pWit] []
    0 pWit rfl rfl (by decide) (by decide)

set_option maxRecDepth 20000 in
/-- C1 counterexample: `imgRowAnchor2` is ingested as a row anchor
(`row = 0`), yet after assembling
`[imgOrigin, imgRowAnchor1, imgRowAnchor2]` the piece holding its
fingerprints (index 2 post-sort, identified by its unique left-edge
fingerprint) ends at `(1, 1)`: its anchored `row = 0` was overwritten
with 1 when `imgRowAnchor1`'s bottom expansion adopted it, because the
candidate filter admits any piece with `col = -1` OR `row = -1`. -/
theorem c1_counterexample :
    (PuzzlePiece.new imgRowAnchor2).row = 0 ∧
      finalCoordsOfEdge
        (assemble_puzzle 10
          [PuzzlePiece.new imgOrigin, PuzzlePiece.new imgRowAnchor1,
            PuzzlePiece.new imgRowAnchor2])
        Side.left (PuzzlePiece.new imgRowAnchor2).ehL = some (1, 1) := by
  constructor
  · rfl
  · decide

/-- C2 (amended).  What the pre-sort actually guarantees: two ingestion
orders yield identical final coordinate assignments whenever sorting
maps them to the same sequence.  (It does not remove order dependence in
general: all non-origin anchors compare equal, as do all non-anchors, the
unstable sort keeps such ties in ingestion order, and the first-match
tie-break then selects candidates by that order — see the
counterexample.) -/
theorem c2_equal_sorted_equal_assembly (l1 l2 : List PuzzlePiece) (fuel : Nat)
    (h : sort_pieces l1 = sort_pieces l2) :
    assemble_puzzle fuel l1 = assemble_puzzle fuel l2 := by
  unfold assemble_puzzle
  rw [h]

/-- An unresolved-row literal column-anchor piece, matching nothing. -/
def pAnch : PuzzlePiece :=
  { image := ⟨1, 1, [[0]]⟩, col := 0, row := -1, ehL := 5, ehT := 6, ehR := 7, ehB := 8 }

/-- C2 witness: the two ingestion orders of `{pWit, pAnch}` sort to the
same sequence, so assembly gives identical results. -/
theorem c2_witness :
    assemble_puzzle 5 [pWit, pAnch] = assemble_puzzle 5 [pAnch, pWit] :=
  c2_equal_sorted_equal_assembly [pWit, pAnch] [pAnch, pWit] 5 (by decide)

set_option maxRecDepth 20000 in
/-- C2 counterexample: the tile sets are permutations of each other, but
the tile ingested from `imgRowAnchor1` (identified by its unique top-edge
fingerprint) is placed at `(1, 0)` under one ingestion order and left
unplaced (`col = -1`) under the other: both row anchors expose the same
left-edge fingerprint, the sort keeps them in ingestion order, and the
first eligible candidate wins the origin's rightward expansion. -/
theorem c2_counterexample :
    List.Perm
      [PuzzlePiece.new imgOrigin, PuzzlePiece.new imgRowAnchor1, PuzzlePiece.new imgRowAnchor3]
      [PuzzlePiece.new imgOrigin, PuzzlePiece.new imgRowAnchor3, PuzzlePiece.new imgRowAnchor1] ∧
    finalCoordsOfEdge
      (assemble_puzzle 10
        [PuzzlePiece.new imgOrigin, PuzzlePiece.new imgRowAnchor1, PuzzlePiece.new imgRowAnchor3])
      Side.top (PuzzlePiece.new imgRowAnchor1).ehT = some (1, 0) ∧
    finalCoordsOfEdge
      (assemble_puzzle 10
        [PuzzlePiece.new imgOrigin, PuzzlePiece.new imgRowAnchor3, PuzzlePiece.new imgRowAnchor1])
      Side.top (PuzzlePiece.new imgRowAnchor1).ehT = some (-1, 0) := by
  refine ⟨List.Perm.cons _ (List.Perm.swap _ _ _), ?_, ?_⟩
  · decide
  · decide

/-- C5.  Termination: if the piece at index 0 after sorting has both
coordinates non-negative, every piece pushed on the stack is fully
resolved at push time and never matches the unresolved filter again, so
each push permanently resolves a distinct piece; the loop therefore
drains within `2 * n + 2` iterations for an `n`-piece collection and
`assemble_puzzle` terminates with a final array. -/
theorem c5_assembly_terminates (pieces : List PuzzlePiece) (p0 : PuzzlePiece)
    (h0 : (sort_pieces pieces)[0]? = some p0) (h0c : 0 ≤ p0.col) (h0r : 0 ≤ p0.row) :
    ∃ final, assemble_puzzle (2 * pieces.length + 2) pieces = RunResult.done final := by
  obtain ⟨final, hfin⟩ := runLoop_done_of_measure (build_hash_map (sort_pieces pieces))
    (2 * pieces.length + 2) (sort_pieces pieces) [0]
    (by
      intro k hk
      obtain rfl := List.mem_singleton.mp hk
      exact ⟨p0, h0, h0c, h0r⟩)
    (by
      have h1 : (sort_pieces pieces).countP unresP ≤ (sort_pieces pieces).length :=
        List.countP_le_length _
      rw [length_sort_pieces] at h1
      simp only [List.length_cons, List.length_nil]
      omega)
  exact ⟨final, hfin⟩

/-- C5 witness: the singleton collection holding the resolved piece
`pWit` assembles to completion within the fuel bound. -/
theorem c5_witness :
    ∃ final, assemble_puzzle 4 [pWit] = RunResult.done final :=
  c5_assembly_terminates [pWit] pWit (by decide) (by decide) (by decide)

/-- C4.  Neighbor selection and assignment rule: for a popped piece with
captured coordinates `(c, r)` and either forward pairing (Right against
the Left map, Bottom against the Top map), the expansion selects exactly
the first candidate in the index entry's insertion order that is not the
current piece and has `col = -1` or `row = -1` (`firstEligible`); when it
exists, that candidate's coordinates become `(c + 1, r)` for Right,
`(c, r + 1)` for Bottom, and the candidate is pushed onto the stack; when
no candidate qualifies the state is unchanged. -/
theorem c4_selection_and_assignment (hm : Side → Nat → List Nat)
    (pieces : List PuzzlePiece) (cur : Nat) (c r : Int) (stack : List Nat)
    (side opp : Side) (cp : PuzzlePiece)
    (hcur : pieces[cur]? = some cp)
    (hso : (side = Side.right ∧ opp = Side.left) ∨ (side = Side.bottom ∧ opp = Side.top)) :
    ((hm opp (cp.edgeHash side)).find? (eligibleB pieces cur) = none →
        expandSide hm pieces cur c r side opp stack = some (pieces, stack)) ∧
      ∀ id, (hm opp (cp.edgeHash side)).find? (eligibleB pieces cur) = some id →
        firstEligible pieces cur (hm opp (cp.edgeHash side)) id ∧
        ∃ p : PuzzlePiece, pieces[id]? = some p ∧
          expandSide hm pieces cur c r side opp stack =
            some (pieces.set id
              { p with
                col := c + (if side = Side.right then 1 else 0),
                row := r + (if side = Side.right then 0 else 1) },
              id :: stack) := by
  obtain ⟨p', st', hexp⟩ :=
    @expandSide_isSome hm pieces cur c r side opp stack cp hcur
  rcases expandSide_cases hexp with
    ⟨cp2, hcur2, ⟨hpp, hss, hfnone⟩ | ⟨id0, p, hfind0, -, -, hp0, -, hset, hstack⟩⟩
  · obtain rfl : cp = cp2 := Option.some.inj (hcur ▸ hcur2)
    constructor
    · intro _
      rw [hexp, hpp, hss]
    · intro id hfind
      rw [hfnone] at hfind
      exact Option.noConfusion hfind
  · obtain rfl : cp = cp2 := Option.some.inj (hcur ▸ hcur2)
    constructor
    · intro hfnone
      rw [hfnone] at hfind0
      exact Option.noConfusion hfind0
    · intro id hfind
      obtain rfl : id0 = id := Option.some.inj (hfind0 ▸ hfind)
      have hoffeq : (OFFSETS side).1 = (if side = Side.right then 1 else 0) ∧
          (OFFSETS side).2 = (if side = Side.right then 0 else 1) := by
        rcases hso with ⟨rfl, -⟩ | ⟨rfl, -⟩ <;> simp [OFFSETS]
      refine ⟨?_, p, hp0, ?_⟩
      · obtain ⟨l1, l2, hsplit, helig, hfail⟩ := find?_eq_some_split hfind0
        exact ⟨l1, l2, hsplit, helig, hfail⟩
      · rw [hexp, hset, hoffeq.1, hoffeq.2, hstack]

/-- C4 witness: a concrete two-piece state in which the origin-like piece
`pX` right-expands; the theorem pins the selected candidate (index 1),
its new coordinates `(0 + 1, 0 + 0)` and the push. -/
def pX : PuzzlePiece :=
  { image := ⟨1, 1, [[0]]⟩, col := 0, row := 0, ehL := 9, ehT := 10, ehR := 5, ehB := 11 }

/-- The unresolved literal piece `pY`, whose left fingerprint matches
`pX`'s right fingerprint. -/
def pY : PuzzlePiece :=
  { image := ⟨1, 1, [[0]]⟩, col := -1, row := -1, ehL := 5, ehT := 12, ehR := 7, ehB := 13 }

/-- C4 witness statement: instantiating the rule at `pX`/`pY`. -/
theorem c4_witness :
    firstEligible [pX, pY] 0 (build_hash_map [pX, pY] Side.left (pX.edgeHash Side.right)) 1 ∧
      ∃ p : PuzzlePiece, ([pX, pY] : List PuzzlePiece)[1]? = some p ∧
        expandSide (build_hash_map [pX, pY]) [pX, pY] 0 0 0 Side.right Side.left [] =
          some (([pX, pY] : List PuzzlePiece).set 1
            { p with
              col := (0 : Int) + (if Side.right = Side.right then 1 else 0),
              row := (0 : Int) + (if Side.right = Side.right then 0 else 1) },
            [1]) :=
  (c4_selection_and_assignment (build_hash_map [pX, pY]) [pX, pY] 0 0 0 []
    Side.right Side.left pX rfl (Or.inl ⟨rfl, rfl⟩)).2 1 (by decide)

/-- C3 (amended).  Coordinate injectivity holds under geometric
consistency of the fingerprints: if the post-sort array has a resolved
piece at index 0 and there is an injective ground-truth grid assignment
`pos` that agrees with the initially resolved coordinates and with which
every right/left and bottom/top fingerprint match between distinct pieces
is geometrically consistent, then after the traversal no two distinct
placed pieces share a `(col, row)` pair.  (Without these hypotheses the
claim fails on the code: the candidate filter checks only the candidate's
own coordinates, never cell occupancy — see the counterexample.) -/
theorem c3_injectivity_of_consistent (pieces final : List PuzzlePiece)
    (pos : Nat → Nat × Nat) (fuel : Nat)
    (hinj : ∀ i j, i < pieces.length → j < pieces.length → pos i = pos j → i = j)
    (hadj : AdjConsistent pos pieces)
    (hinit : PlacedPos pos pieces)
    (p0 : PuzzlePiece) (h0 : pieces[0]? = some p0) (h0c : 0 ≤ p0.col) (h0r : 0 ≤ p0.row)
    (hrun : runLoop (build_hash_map pieces) fuel pieces [0] = RunResult.done final)
    (i j : Nat) (qi qj : PuzzlePiece)
    (hi : final[i]? = some qi) (hj : final[j]? = some qj) (hij : i ≠ j)
    (hqic : 0 ≤ qi.col) (hqir : 0 ≤ qi.row) (hqjc : 0 ≤ qj.col) (hqjr : 0 ≤ qj.row) :
    (qi.col, qi.row) ≠ (qj.col, qj.row) := by
  have hsame0 : SameHashes pieces pieces := fun k q hk => ⟨q, hk, fun _ => rfl⟩
  have hgood0 : GoodStack pieces [0] := by
    intro k hk
    obtain rfl := List.mem_singleton.mp hk
    exact ⟨p0, h0, h0c, h0r⟩
  have hplacedf : PlacedPos pos final :=
    runLoop_placed_pos hadj fuel pieces [0] final hsame0 hinit hgood0 hrun
  have hlen : final.length = pieces.length :=
    runLoop_length _ fuel pieces [0] final hrun
  have hilen : i < pieces.length := by
    rcases List.getElem?_eq_some.mp hi with ⟨h1, -⟩
    omega
  have hjlen : j < pieces.length := by
    rcases List.getElem?_eq_some.mp hj with ⟨h1, -⟩
    omega
  intro hcontra
  rw [Prod.mk.injEq] at hcontra
  obtain ⟨hceq, hreq⟩ := hcontra
  obtain ⟨hci, hri⟩ := hplacedf i qi hi
  obtain ⟨hcj, hrj⟩ := hplacedf j qj hj
  have h1 : ((pos i).1 : Int) = ((pos j).1 : Int) := by
    rw [← hci hqic, ← hcj hqjc, hceq]
  have h2 : ((pos i).2 : Int) = ((pos j).2 : Int) := by
    rw [← hri hqir, ← hrj hqjr, hreq]
  have hpos : pos i = pos j := by
    have h1' : (pos i).1 = (pos j).1 := by exact_mod_cast h1
    have h2' : (pos i).2 = (pos j).2 := by exact_mod_cast h2
    exact Prod.ext h1' h2'
  exact hij (hinj i j hilen hjlen hpos)

/-- The result of placing `pY` at `(1, 0)`, for the C3 witness run. -/
def pYplaced : PuzzlePiece :=
  { image := ⟨1, 1, [[0]]⟩, col := 1, row := 0, ehL := 5, ehT := 12, ehR := 7, ehB := 13 }

/-- The ground-truth assignment for the two-piece witness state. -/
def posW : Nat → Nat × Nat :=
  fun i => if i = 0 then (0, 0) else (1, 0)

/-- C3 witness: on the consistent two-piece state `[pX, pY]` (with
ground truth `posW`), the theorem yields distinct final cells for the two
placed pieces. -/
theorem c3_witness : ((pX.col, pX.row) : Int × Int) ≠ (pYplaced.col, pYplaced.row) := by
  refine c3_injectivity_of_consistent [pX, pY] [pX, pYplaced] posW 5
    ?_ ?_ ?_ pX rfl (by decide) (by decide) (by decide)
    0 1 pX pYplaced rfl rfl (by decide) (by decide) (by decide) (by decide) (by decide)
  · intro i j hi hj hp
    simp only [List.length_cons, List.length_nil] at hi hj
    interval_cases i <;> interval_cases j
    · rfl
    · exact absurd hp (by decide)
    · exact absurd hp (by decide)
    · rfl
  · intro i j qi qj hqi hqj hne
    have hi2 : i < 2 := by
      rcases List.getElem?_eq_some.mp hqi with ⟨h1, -⟩
      simpa using h1
    have hj2 : j < 2 := by
      rcases List.getElem?_eq_some.mp hqj with ⟨h1, -⟩
      simpa using h1
    interval_cases i <;> interval_cases j
    · exact absurd rfl hne
    · obtain rfl : pX = qi := Option.some.inj (by simpa using hqi)
      obtain rfl : pY = qj := Option.some.inj (by simpa using hqj)
      exact ⟨fun _ => by decide, fun hbad => absurd hbad (by decide)⟩
    · obtain rfl : pY = qi := Option.some.inj (by simpa using hqi)
      obtain rfl : pX = qj := Option.some.inj (by simpa using hqj)
      exact ⟨fun hbad => absurd hbad (by decide), fun hbad => absurd hbad (by decide)⟩
    · exact absurd rfl hne
  · intro k q hk
    match k, hk with
    | 0, hk =>
      obtain rfl : pX = q := Option.some.inj (by simpa using hk)
      refine ⟨fun _ => by simp [pX, posW], fun _ => by simp [pX, posW]⟩
    | 1, hk =>
      obtain rfl : pY = q := Option.some.inj (by simpa using hk)
      exact ⟨fun hc => absurd hc (by simp [pY]), fun hr => absurd hr (by simp [pY])⟩
    | n + 2, hk => simp at hk

/-- Every row of the first 240x4 column-anchor tile: intensity 200 in the
first column, 30 in the last. -/
def aRow : List Nat :=
  (List.range 240).map (fun x => if x = 0 then 200 else if x = 239 then 30 else 0)

/-- Rows 1..4 of the second column-anchor tile: 210 in the first column,
60 in the last. -/
def cRow : List Nat :=
  (List.range 240).map (fun x => if x = 0 then 210 else if x = 239 then 60 else 0)

/-- A 240x4 column-anchor tile (col = 0, row = -1). -/
def imgColAnchorA : ImageData :=
  { width := 240, height := 4, rows := List.replicate 4 aRow }

/-- A 240x5 column-anchor tile whose top row equals `imgColAnchorA`'s
bottom row (so it is adopted as its downward neighbour). -/
def imgColAnchorC : ImageData :=
  { width := 240, height := 5, rows := aRow :: List.replicate 4 cRow }

/-- A 3x4 non-anchor tile whose left column (constant 30) matches
`imgColAnchorA`'s right column. -/
def imgSmallB : ImageData :=
  { width := 3, height := 4, rows := List.replicate 4 [30, 0, 70] }

/-- A 3x5 non-anchor tile whose left column `[30,60,60,60,60]` matches
`imgColAnchorC`'s right column. -/
def imgSmallP : ImageData :=
  { width := 3, height := 5, rows := [30, 0, 80] :: List.replicate 4 [60, 0, 80] }

/-- A 3x6 non-anchor tile whose top row `[30,0,70]` matches
`imgSmallB`'s bottom row. -/
def imgSmallQ : ImageData :=
  { width := 3, height := 6, rows := [30, 0, 70] :: List.replicate 5 [90, 0, 95] }

set_option maxRecDepth 20000 in
/-- C3 counterexample: assembling the five ingested tiles
`[A, C, B, P, Q]` (which sort to themselves) walks two chains from the
seeded column anchor `A` (position `(0,-1)`): `A → B` rightward and
`A → C → P` with `C` at `(0,0)` and `P` at `(1,0)`, and then `B`
(at `(1,-1)`) adopts `Q` downward at `(1,0)` as well — two distinct
pieces (post-sort indices 3 and 4) end fully placed on the same cell,
because the candidate filter never checks cell occupancy. -/
theorem c3_counterexample :
    coordsAtIdx (assemble_puzzle 12
      [PuzzlePiece.new imgColAnchorA, PuzzlePiece.new imgColAnchorC,
        PuzzlePiece.new imgSmallB, PuzzlePiece.new imgSmallP,
        PuzzlePiece.new imgSmallQ]) 3 = some (1, 0) ∧
    coordsAtIdx (assemble_puzzle 12
      [PuzzlePiece.new imgColAnchorA, PuzzlePiece.new imgColAnchorC,
        PuzzlePiece.new imgSmallB, PuzzlePiece.new imgSmallP,
        PuzzlePiece.new imgSmallQ]) 4 = some (1, 0) := by
  constructor
  · decide
  · decide

/-- The `i`-th 3x135 tile of the rightward chain: left column constant
`10 i`, right column constant `10 i + 10`, so consecutive chain tiles
share a border fingerprint. -/
def chainImg (i : Nat) : ImageData :=
  { width := 3, height := 135, rows := List.replicate 135 [10 * i, 0, 10 * i + 10] }

/-- The origin tile followed by the 16-tile rightward chain. -/
def chainPieces : List PuzzlePiece :=
  PuzzlePiece.new imgOrigin ::
    (List.range 16).map (fun k => PuzzlePiece.new (chainImg (k + 1)))

set_option maxRecDepth 40000 in
set_option maxHeartbeats 3000000 in
/-- C10.  Assigned coordinates are not bounded by the grid: on the
17-tile chain input, the chain tile popped at `(15, 0)` — i.e. with
`col = PUZZLE_GRID_SIZE - 1` and `row < PUZZLE_GRID_SIZE - 1`, so the
terminal-cell skip (which requires exactly `(15, 15)`) does not fire —
still expands rightward and assigns its neighbour (post-sort index 16)
`col = PUZZLE_GRID_SIZE = 16`; that out-of-range piece is excluded from
the canvas only by the compositor's range check `inGrid`. -/
theorem c10_assignment_exceeds_grid :
    coordsAtIdx (assemble_puzzle 40 chainPieces) 15 = some (15, 0) ∧
    (pieceAtIdx (assemble_puzzle 40 chainPieces) 16).map
        (fun p => (p.col, p.row, inGrid p)) =
      some ((PUZZLE_GRID_SIZE : Int), 0, false) := by
  constructor
  · decide
  · decide

/-- C9 witness: the panic observed at the smallest positive fuel. -/
theorem c9_witness : assemble_puzzle 1 ([] : List PuzzlePiece) = RunResult.panicked :=
  c9_empty_input_panics 0
